import Mathlib

/-!
Verification of the `puzzle-15` board engine (`src/game/src/lib.rs`).

The Rust core is shallowly embedded: `Vec<Option<NonZeroU16>>` becomes
`List (Option Nat)` (a `NonZeroU16` value is a natural number `1 ≤ v < 65536`,
and `NonZeroU16::new v` yields `none` exactly when `v = 0`); `u8`/`u16`/`usize`
arithmetic is `Nat` with explicit `% 2^w` where wrap-around could matter;
`isize` arithmetic in `move_once` is `Int`.  Rust panics (`%` by zero,
out-of-bounds `Vec::swap`) are modelled by an `Option`-returning variant of
`move_once`, where `none` stands for a panic.
-/

namespace PuzzleFifteen

/-- The `Move` enum: a direction the blank cell travels. -/
inductive Move where
  | Left
  | Right
  | Up
  | Down
deriving DecidableEq, Repr

/-- The `MOVES` constant: all four directions. -/
def MOVES : List Move := [Move.Left, Move.Right, Move.Up, Move.Down]

/-- `NonZeroU16::new`: `none` on zero, `some v` otherwise. -/
def nzNew (v : Nat) : Option Nat :=
  if v = 0 then none else some v

/-- A Rust half-open range `a..b` as a list (empty when `b ≤ a`). -/
def rustRange (a b : Nat) : List Nat := List.range' a (b - a)

/-- The `Board` struct: `cells`, `size` and the cached blank index
`free_cell_ix`. -/
@[ext] structure Board where
  cells : List (Option Nat)
  size : Nat
  free_cell_ix : Nat
deriving DecidableEq, Repr

/-- `Vec::swap self.cells i j` (indices assumed in bounds where it is used):
the slot at `i` receives the old slot at `j` and vice versa. -/
def listSwap (l : List (Option Nat)) (i j : Nat) : List (Option Nat) :=
  (l.set i (l.getD j none)).set j (l.getD i none)

/-- `Board::new` with the `DummyShuffle` (identity) strategy, which mutates
nothing.  `size` is a `u8` (callers pass `size < 256`); `num_cells` is
computed in `u16`, hence the `% 65536`; the cells are
`(1..num_cells).chain(0..1).map(NonZeroU16::new)`. -/
def Board.new (size : Nat) : Board :=
  let numCells := size * size % 65536
  let cells := (rustRange 1 numCells ++ rustRange 0 1).map nzNew
  { cells := cells, size := size, free_cell_ix := cells.length - 1 }

/-- The Rust `Board::new` returns `anyhow::Result<Self>`, but its body has no
error path: it always ends in `Ok(board)`. -/
def Board.new_result (size : Nat) : Except String Board :=
  Except.ok (Board.new size)

/-- The board that results from a legal move of the blank to flat index
`t`: the blank slot and the target slot are swapped and the cached blank
index becomes `t`. -/
def Board.apply_move (b : Board) (t : Nat) : Board :=
  { b with cells := listSwap b.cells b.free_cell_ix t, free_cell_ix := t }

/-- The tail of `Board::move_once` shared by all four arms: the bounds check
`target_cell_ix < 0 || target_cell_ix >= self.cells.len()`, then
`Vec::swap` and the update of `free_cell_ix`. -/
def Board.finishMove (b : Board) (t : Int) : Board × Bool :=
  if t < 0 ∨ (b.cells.length : Int) ≤ t then (b, false)
  else (b.apply_move t.toNat, true)

/-- `Board::move_once`: target-index computation in `isize`, with the
row-wrap early returns for `Left`/`Right` exactly as in the source. -/
def Board.move_once (b : Board) (mv : Move) : Board × Bool :=
  let free : Int := b.free_cell_ix
  let size : Int := b.size
  match mv with
  | Move.Left =>
      if (free + 1) % size = 0 then (b, false)
      else b.finishMove (free + 1)
  | Move.Right =>
      if free % size = 0 then (b, false)
      else b.finishMove (free - 1)
  | Move.Up => b.finishMove (free + size)
  | Move.Down => b.finishMove (free - size)

/-- The tail of `move_once` with Rust panics made explicit: `none` when
`Vec::swap` would index out of bounds (the target index is already checked
by the code itself; the blank index is not). -/
def Board.finishMoveChecked (b : Board) (t : Int) : Option (Board × Bool) :=
  if t < 0 ∨ (b.cells.length : Int) ≤ t then some (b, false)
  else if b.cells.length ≤ b.free_cell_ix then none
  else some (b.apply_move t.toNat, true)

/-- `Board::move_once` with Rust panics made explicit: `none` models a panic
(`%` by zero in the `Left`/`Right` arms when `size = 0`, or an out-of-bounds
`Vec::swap`); `some (b, r)` models a normal return. -/
def Board.move_onceChecked (b : Board) (mv : Move) : Option (Board × Bool) :=
  let free : Int := b.free_cell_ix
  let size : Int := b.size
  match mv with
  | Move.Left =>
      if b.size = 0 then none
      else if (free + 1) % size = 0 then some (b, false)
      else b.finishMoveChecked (free + 1)
  | Move.Right =>
      if b.size = 0 then none
      else if free % size = 0 then some (b, false)
      else b.finishMoveChecked (free - 1)
  | Move.Up => b.finishMoveChecked (free + size)
  | Move.Down => b.finishMoveChecked (free - size)

/-- `Board::move_many`: attempt every direction in order, counting the
successful ones. -/
def Board.move_many (b : Board) (moves : List Move) : Board × Nat :=
  moves.foldl
    (fun acc mv =>
      let r := acc.1.move_once mv
      (r.1, if r.2 then acc.2 + 1 else acc.2))
    (b, 0)

/-- The board state after folding `move_once` over a direction sequence
left to right. -/
def Board.applyAll (b : Board) (moves : List Move) : Board :=
  moves.foldl (fun c mv => (c.move_once mv).1) b

/-- The booleans returned by the successive `move_once` calls of
`move_many`, in call order. -/
def Board.moveResults (b : Board) : List Move → List Bool
  | [] => []
  | mv :: rest =>
      let r := b.move_once mv
      r.2 :: r.1.moveResults rest

/-- The loop body state of `Board::is_ordered`: `prev` is the last non-empty
value seen so far. -/
def isOrderedGo : Option Nat → List (Option Nat) → Bool
  | _, [] => true
  | prev, c :: rest =>
      match c, prev with
      | some v, some p => if v ≤ p then false else isOrderedGo (some v) rest
      | none, _ => isOrderedGo prev rest
      | some v, none => isOrderedGo (some v) rest

/-- `Board::is_ordered`: scan the cells in storage order, skip empty slots,
and require consecutive non-empty values to be strictly increasing. -/
def Board.is_ordered (b : Board) : Bool := isOrderedGo none b.cells

/-- `RandomShuffle::shuffle` after consuming the first `n` random draws of
the stream `s`: the loop `while i < size^4 { draw; if move_once succeeds,
i += 1 }`.  The pair is (current board, count `i` of applied moves);
once the count reaches `size^4` further draws change nothing. -/
def shuffleRun (b : Board) (s : Nat → Move) : Nat → Board × Nat
  | 0 => (b, 0)
  | n + 1 =>
      let st := shuffleRun b s n
      if st.2 < b.size ^ 4 then
        let r := st.1.move_once (s n)
        (r.1, if r.2 then st.2 + 1 else st.2)
      else st

/-- The `RandomShuffle::shuffle` loop terminates on board `b` under draw
stream `s`: after some finite number of draws the applied-move count
reaches `size^4`. -/
def shuffleTerminates (b : Board) (s : Nat → Move) : Prop :=
  ∃ n, (shuffleRun b s n).2 = b.size ^ 4

/-- The tiles of the canonical solved layout of a board with `n` cells:
`1, 2, …, n-1`. -/
def canonicalTiles (n : Nat) : List Nat := List.range' 1 (n - 1)

/-- The data-model invariants of §3 of the spec: the cell buffer has
`size * size` slots, the cached blank index is in range and points at an
empty slot, exactly one slot is empty, and the non-empty slots hold each
tile value `1..size*size-1` exactly once. -/
def Board.WF (b : Board) : Prop :=
  b.cells.length = b.size * b.size
  ∧ b.free_cell_ix < b.size * b.size
  ∧ b.cells[b.free_cell_ix]? = some none
  ∧ b.cells.count none = 1
  ∧ (b.cells.filterMap id).Perm (canonicalTiles (b.size * b.size))

instance (b : Board) : Decidable b.WF := by
  unfold Board.WF
  infer_instance

/-- Modelled from the claim wording (C1 / §4.2 of the spec), for comparison
with the code's `move_once`: the target flat index is `blank±1` or
`blank±size`; `Left` is illegal when `(blank+1) % size = 0`, `Right` when
`blank % size = 0`, `Up` when the target is `≥ size*size`, `Down` when the
target is `< 0`; a legal move swaps blank and target slots and moves the
blank index to the target, an illegal one changes nothing. -/
def moveOnceSpec (b : Board) (mv : Move) : Board × Bool :=
  let blank : Int := b.free_cell_ix
  let size : Int := b.size
  let target : Int :=
    match mv with
    | Move.Left => blank + 1
    | Move.Right => blank - 1
    | Move.Up => blank + size
    | Move.Down => blank - size
  let illegal : Bool :=
    match mv with
    | Move.Left => decide ((blank + 1) % size = 0)
    | Move.Right => decide (blank % size = 0)
    | Move.Up => decide (size * size ≤ target)
    | Move.Down => decide (target < 0)
  if illegal then (b, false) else (b.apply_move target.toNat, true)

/-- The opposite direction, pairing `Left`/`Right` and `Up`/`Down`. -/
def opposite : Move → Move
  | Move.Left => Move.Right
  | Move.Right => Move.Left
  | Move.Up => Move.Down
  | Move.Down => Move.Up

/-- A direction stream cycling through all four directions. -/
def cycleStream (n : Nat) : Move :=
  match n % 4 with
  | 0 => Move.Left
  | 1 => Move.Right
  | 2 => Move.Up
  | _ => Move.Down

example : Board.new 2 =
    { cells := [some 1, some 2, some 3, none], size := 2, free_cell_ix := 3 } := by
  decide

example : (Board.new 2).WF := by decide

example : (Board.new 1).move_once Move.Left = (Board.new 1, false) := by decide

example : ((Board.new 2).move_once Move.Right).1.cells
    = [some 1, some 2, none, some 3] := by decide

example : (Board.new 2).is_ordered = true := by decide

example : ((Board.new 2).move_many [Move.Right, Move.Down]).1.cells
    = [none, some 2, some 1, some 3] := by decide

example : ((Board.new 2).move_many [Move.Right, Move.Down]).1.is_ordered = false := by
  decide

/- The `board_4x4` regression scenario of the Rust test suite, replayed on
the embedding: `Left` and `Up` are illegal from the solved position,
`Right` slides tile 15, three more `Right`s stop at the row start. -/
example : (Board.new 4).move_once Move.Left = (Board.new 4, false) := by decide

example : (Board.new 4).move_once Move.Up = (Board.new 4, false) := by decide

example : ((Board.new 4).move_once Move.Right).1.cells
    = [some 1, some 2, some 3, some 4, some 5, some 6, some 7, some 8,
       some 9, some 10, some 11, some 12, some 13, some 14, none, some 15] := by
  decide

example :
    (((Board.new 4).move_once Move.Right).1.move_many
        [Move.Right, Move.Right, Move.Right]).1.cells
    = [some 1, some 2, some 3, some 4, some 5, some 6, some 7, some 8,
       some 9, some 10, some 11, some 12, none, some 13, some 14, some 15] := by
  decide

example :
    (((Board.new 4).move_once Move.Right).1.move_many
        [Move.Right, Move.Right, Move.Right]).2 = 2 := by
  decide

example :
    ((Board.new 4).move_many
        [Move.Right, Move.Right, Move.Right, Move.Right, Move.Left, Move.Left,
         Move.Down, Move.Down, Move.Down, Move.Right, Move.Right]).1.cells
    = [none, some 1, some 2, some 4, some 5, some 6, some 3, some 8,
       some 9, some 10, some 7, some 12, some 13, some 14, some 11, some 15] := by
  decide

/-! ### Lemmas about `listSwap` -/

theorem length_listSwap (l : List (Option Nat)) (i j : Nat) :
    (listSwap l i j).length = l.length := by
  simp [listSwap]

theorem getElem?_listSwap {l : List (Option Nat)} {i j : Nat} {a c : Option Nat}
    (hi : l[i]? = some a) (hj : l[j]? = some c) (k : Nat) :
    (listSwap l i j)[k]? = if k = j then some a else if k = i then some c else l[k]? := by
  obtain ⟨hil, hia⟩ := List.getElem?_eq_some_iff.mp hi
  obtain ⟨hjl, hjc⟩ := List.getElem?_eq_some_iff.mp hj
  have hgi : l.getD i none = a := by simp [List.getD_eq_getElem?_getD, hi]
  have hgj : l.getD j none = c := by simp [List.getD_eq_getElem?_getD, hj]
  unfold listSwap
  rw [hgi, hgj]
  by_cases hkj : k = j
  · subst hkj
    rw [if_pos rfl, List.getElem?_set_self (by simpa using hjl)]
  · rw [if_neg hkj, List.getElem?_set_ne (fun h => hkj h.symm)]
    by_cases hki : k = i
    · subst hki
      rw [if_pos rfl, List.getElem?_set_self hil]
    · rw [if_neg hki, List.getElem?_set_ne (fun h => hki h.symm)]

theorem cons_set_perm (t : List (Option Nat)) :
    ∀ m : Nat, m < t.length →
      ∀ y : Option Nat, (t.getD m none :: t.set m y).Perm (y :: t) := by
  induction t with
  | nil =>
    intro m hm
    simp at hm
  | cons z t2 ih =>
    intro m hm y
    cases m with
    | zero =>
      simp only [List.getD_cons_zero, List.set_cons_zero]
      exact List.Perm.swap y z t2
    | succ k =>
      have hk : k < t2.length := by simpa using hm
      simp only [List.getD_cons_succ, List.set_cons_succ]
      refine (List.Perm.swap z (t2.getD k none) (t2.set k y)).trans ?_
      exact ((ih k hk y).cons z).trans (List.Perm.swap y z t2)

theorem listSwap_perm (l : List (Option Nat)) :
    ∀ i j : Nat, i < l.length → j < l.length → (listSwap l i j).Perm l := by
  induction l with
  | nil =>
    intro i j hi _
    simp at hi
  | cons y t ih =>
    intro i j hi hj
    cases i with
    | zero =>
      cases j with
      | zero => simp [listSwap]
      | succ k =>
        have hk : k < t.length := by simpa using hj
        simpa [listSwap] using cons_set_perm t k hk y
    | succ m =>
      cases j with
      | zero =>
        have hm : m < t.length := by simpa using hi
        simpa [listSwap] using cons_set_perm t m hm y
      | succ k =>
        have hm : m < t.length := by simpa using hi
        have hk : k < t.length := by simpa using hj
        simpa [listSwap] using (ih m k hm hk).cons y

theorem listSwap_involution {l : List (Option Nat)} {i j : Nat} {a c : Option Nat}
    (hi : l[i]? = some a) (hj : l[j]? = some c) :
    listSwap (listSwap l i j) j i = l := by
  have hac : i = j → a = c := by
    intro h
    rw [h, hj] at hi
    exact (Option.some_inj.mp hi).symm
  have hLj : (listSwap l i j)[j]? = some a := by
    rw [getElem?_listSwap hi hj j, if_pos rfl]
  have hLi : (listSwap l i j)[i]? = some c := by
    rw [getElem?_listSwap hi hj i]
    by_cases hij : i = j
    · rw [if_pos hij, hac hij]
    · rw [if_neg hij, if_pos rfl]
  refine List.ext_getElem? fun k => ?_
  rw [getElem?_listSwap hLj hLi k]
  by_cases hki : k = i
  · rw [if_pos hki, hki, hi]
  · rw [if_neg hki]
    by_cases hkj : k = j
    · rw [if_pos hkj, hkj, hj]
    · rw [if_neg hkj, getElem?_listSwap hi hj k, if_neg hkj, if_neg hki]

/-! ### Characterization of `move_once` on well-formed boards -/

theorem finishMove_of_lt (b : Board) (t : Int) (h0 : 0 ≤ t)
    (hlt : t < (b.cells.length : Int)) :
    b.finishMove t = (b.apply_move t.toNat, true) := by
  unfold Board.finishMove
  rw [if_neg (by omega)]

theorem finishMove_of_oob (b : Board) (t : Int)
    (h : t < 0 ∨ (b.cells.length : Int) ≤ t) :
    b.finishMove t = (b, false) := by
  unfold Board.finishMove
  rw [if_pos h]

theorem size_pos_of_wf {b : Board} (hwf : b.WF) : 1 ≤ b.size := by
  obtain ⟨-, hfree, -, -, -⟩ := hwf
  rcases Nat.eq_zero_or_pos b.size with h0 | h0
  · rw [h0] at hfree
    simp at hfree
  · exact h0

theorem free_lt_len_of_wf {b : Board} (hwf : b.WF) :
    b.free_cell_ix < b.cells.length := by
  obtain ⟨hlen, hfree, -, -, -⟩ := hwf
  rw [hlen]
  exact hfree

theorem left_target_lt {b : Board} (hwf : b.WF)
    (h : (b.free_cell_ix + 1) % b.size ≠ 0) :
    b.free_cell_ix + 1 < b.cells.length := by
  obtain ⟨hlen, hfree, -, -, -⟩ := hwf
  rw [hlen]
  rcases Nat.lt_or_ge (b.free_cell_ix + 1) (b.size * b.size) with h1 | h1
  · exact h1
  · exfalso
    have heq : b.free_cell_ix + 1 = b.size * b.size := by omega
    rw [heq] at h
    exact h (Nat.mul_mod_left b.size b.size)

theorem right_source_pos {b : Board} (h : b.free_cell_ix % b.size ≠ 0) :
    1 ≤ b.free_cell_ix := by
  rcases Nat.eq_zero_or_pos b.free_cell_ix with h0 | h0
  · rw [h0] at h
    simp at h
  · exact h0

theorem move_once_left (b : Board) (hwf : b.WF) :
    b.move_once Move.Left =
      if (b.free_cell_ix + 1) % b.size = 0 then (b, false)
      else (b.apply_move (b.free_cell_ix + 1), true) := by
  have hcast : ((b.free_cell_ix : Int) + 1) % (b.size : Int)
      = (((b.free_cell_ix + 1) % b.size : Nat) : Int) := by
    rw [Int.natCast_mod]
    norm_num
  simp only [Board.move_once]
  by_cases h : (b.free_cell_ix + 1) % b.size = 0
  · rw [if_pos h, if_pos (by rw [hcast]; exact_mod_cast h)]
  · have hlt : b.free_cell_ix + 1 < b.cells.length := left_target_lt hwf h
    rw [if_neg h, if_neg (by rw [hcast]; exact_mod_cast h),
      finishMove_of_lt b _ (by omega) (by exact_mod_cast hlt)]
    have htn : ((b.free_cell_ix : Int) + 1).toNat = b.free_cell_ix + 1 := by omega
    rw [htn]

theorem move_once_right (b : Board) (hwf : b.WF) :
    b.move_once Move.Right =
      if b.free_cell_ix % b.size = 0 then (b, false)
      else (b.apply_move (b.free_cell_ix - 1), true) := by
  have hcast : (b.free_cell_ix : Int) % (b.size : Int)
      = ((b.free_cell_ix % b.size : Nat) : Int) := by
    rw [Int.natCast_mod]
  simp only [Board.move_once]
  by_cases h : b.free_cell_ix % b.size = 0
  · rw [if_pos h, if_pos (by rw [hcast]; exact_mod_cast h)]
  · have hpos : 1 ≤ b.free_cell_ix := right_source_pos h
    have hlt : b.free_cell_ix < b.cells.length := free_lt_len_of_wf hwf
    rw [if_neg h, if_neg (by rw [hcast]; exact_mod_cast h),
      finishMove_of_lt b _ (by omega) (by omega)]
    have htn : ((b.free_cell_ix : Int) - 1).toNat = b.free_cell_ix - 1 := by omega
    rw [htn]

theorem move_once_up (b : Board) (hwf : b.WF) :
    b.move_once Move.Up =
      if b.size * b.size ≤ b.free_cell_ix + b.size then (b, false)
      else (b.apply_move (b.free_cell_ix + b.size), true) := by
  obtain ⟨hlen, hfree, -, -, -⟩ := hwf
  simp only [Board.move_once]
  by_cases h : b.size * b.size ≤ b.free_cell_ix + b.size
  · rw [if_pos h, finishMove_of_oob b _ (Or.inr (by rw [hlen]; omega))]
  · have hlt : b.free_cell_ix + b.size < b.cells.length := by
      rw [hlen]
      omega
    rw [if_neg h, finishMove_of_lt b _ (by omega) (by omega)]
    have htn : ((b.free_cell_ix : Int) + (b.size : Int)).toNat
        = b.free_cell_ix + b.size := by omega
    rw [htn]

theorem move_once_down (b : Board) (hwf : b.WF) :
    b.move_once Move.Down =
      if b.free_cell_ix < b.size then (b, false)
      else (b.apply_move (b.free_cell_ix - b.size), true) := by
  have hlt : b.free_cell_ix < b.cells.length := free_lt_len_of_wf hwf
  simp only [Board.move_once]
  by_cases h : b.free_cell_ix < b.size
  · rw [if_pos h, finishMove_of_oob b _ (Or.inl (by omega))]
  · rw [if_neg h, finishMove_of_lt b _ (by omega) (by omega)]
    have htn : ((b.free_cell_ix : Int) - (b.size : Int)).toNat
        = b.free_cell_ix - b.size := by omega
    rw [htn]

/-! ### Invariant preservation -/

theorem wf_apply_move {b : Board} (hwf : b.WF) {t : Nat}
    (ht : t < b.cells.length) :
    (b.apply_move t).WF := by
  obtain ⟨hlen, hfree, hcell, hcount, hperm⟩ := hwf
  have hfree' : b.free_cell_ix < b.cells.length := by
    rw [hlen]
    exact hfree
  have hct : b.cells[t]? = some (b.cells.getD t (some 0)) := by
    rw [List.getD_eq_getElem?_getD, List.getElem?_eq_getElem ht]
    rfl
  have hswap := getElem?_listSwap hcell hct
  have hp : (listSwap b.cells b.free_cell_ix t).Perm b.cells :=
    listSwap_perm b.cells b.free_cell_ix t hfree' ht
  refine ⟨?_, ?_, ?_, ?_, ?_⟩
  · simpa [Board.apply_move, length_listSwap] using hlen
  · simpa [Board.apply_move] using (hlen ▸ ht)
  · have := hswap t
    rw [if_pos rfl] at this
    simpa [Board.apply_move] using this
  · show (listSwap b.cells b.free_cell_ix t).count none = 1
    rw [List.count_eq_countP, hp.countP_eq, ← List.count_eq_countP]
    exact hcount
  · simpa [Board.apply_move] using (hp.filterMap id).trans hperm

theorem size_finishMove (b : Board) (t : Int) :
    ((b.finishMove t).1).size = b.size := by
  unfold Board.finishMove
  split <;> rfl

theorem finishMove_fail (b : Board) (t : Int)
    (h : (b.finishMove t).2 = false) : (b.finishMove t).1 = b := by
  revert h
  unfold Board.finishMove
  split <;> simp

theorem size_move_once (b : Board) (mv : Move) :
    ((b.move_once mv).1).size = b.size := by
  cases mv
  · simp only [Board.move_once]
    split
    · rfl
    · exact size_finishMove b _
  · simp only [Board.move_once]
    split
    · rfl
    · exact size_finishMove b _
  · simp only [Board.move_once]
    exact size_finishMove b _
  · simp only [Board.move_once]
    exact size_finishMove b _

theorem move_once_fail_eq {b : Board} {mv : Move}
    (h : (b.move_once mv).2 = false) : (b.move_once mv).1 = b := by
  revert h
  cases mv
  · simp only [Board.move_once]
    split
    · intro
      rfl
    · exact finishMove_fail b _
  · simp only [Board.move_once]
    split
    · intro
      rfl
    · exact finishMove_fail b _
  · simp only [Board.move_once]
    exact finishMove_fail b _
  · simp only [Board.move_once]
    exact finishMove_fail b _

theorem wf_move_once {b : Board} (hwf : b.WF) (mv : Move) :
    ((b.move_once mv).1).WF := by
  have hlen := (free_lt_len_of_wf hwf)
  have hsize := size_pos_of_wf hwf
  cases mv
  · rw [move_once_left b hwf]
    by_cases h : (b.free_cell_ix + 1) % b.size = 0
    · simpa [h] using hwf
    · rw [if_neg h]
      exact wf_apply_move hwf (left_target_lt hwf h)
  · rw [move_once_right b hwf]
    by_cases h : b.free_cell_ix % b.size = 0
    · simpa [h] using hwf
    · rw [if_neg h]
      have := right_source_pos h
      exact wf_apply_move hwf (by omega)
  · rw [move_once_up b hwf]
    by_cases h : b.size * b.size ≤ b.free_cell_ix + b.size
    · simpa [h] using hwf
    · rw [if_neg h]
      have hl := hwf.1
      exact wf_apply_move hwf (by rw [hl]; omega)
  · rw [move_once_down b hwf]
    by_cases h : b.free_cell_ix < b.size
    · simpa [h] using hwf
    · rw [if_neg h]
      exact wf_apply_move hwf (by omega)

theorem wf_applyAll (moves : List Move) :
    ∀ {b : Board}, b.WF → (b.applyAll moves).WF := by
  induction moves with
  | nil =>
    intro b hwf
    exact hwf
  | cons mv rest ih =>
    intro b hwf
    have h1 : b.applyAll (mv :: rest) = ((b.move_once mv).1).applyAll rest := by
      simp [Board.applyAll]
    rw [h1]
    exact ih (wf_move_once hwf mv)

/-! ### The freshly constructed board -/

theorem filterMap_id_map_some (l : List Nat) : (l.map some).filterMap id = l := by
  induction l with
  | nil => rfl
  | cons x t ih => simp [ih]

theorem new_canonical (size : Nat) (h1 : 1 ≤ size) (h256 : size < 256) :
    (Board.new size).cells = (canonicalTiles (size * size)).map some ++ [none]
      ∧ (Board.new size).size = size
      ∧ (Board.new size).free_cell_ix = size * size - 1 := by
  have hlt : size * size < 65536 := by nlinarith
  have hmod : size * size % 65536 = size * size := Nat.mod_eq_of_lt hlt
  have hone : 1 ≤ size * size := by nlinarith
  have hcells : (Board.new size).cells
      = (canonicalTiles (size * size)).map some ++ [none] := by
    show (rustRange 1 (size * size % 65536) ++ rustRange 0 1).map nzNew = _
    rw [hmod]
    have hr0 : rustRange 0 1 = [0] := rfl
    have h2 : (rustRange 1 (size * size)).map nzNew
        = (canonicalTiles (size * size)).map some := by
      unfold rustRange canonicalTiles
      refine List.map_congr_left fun v hv => ?_
      have hv1 : 1 ≤ v := (List.mem_range'_1.mp hv).1
      unfold nzNew
      rw [if_neg (by omega)]
    rw [hr0, List.map_append, h2]
    rfl
  refine ⟨hcells, rfl, ?_⟩
  show (Board.new size).cells.length - 1 = size * size - 1
  rw [hcells]
  simp [canonicalTiles]

theorem wf_new (size : Nat) (h1 : 1 ≤ size) (h256 : size < 256) :
    (Board.new size).WF := by
  obtain ⟨hc, hs, hf⟩ := new_canonical size h1 h256
  have hone : 1 ≤ size * size := by nlinarith
  have hlen : (Board.new size).cells.length = size * size := by
    rw [hc]
    simp [canonicalTiles]
    omega
  refine ⟨?_, ?_, ?_, ?_, ?_⟩
  · rw [hlen, hs]
  · rw [hf, hs]
    omega
  · rw [hc, hf]
    have hmlen : ((canonicalTiles (size * size)).map some).length = size * size - 1 := by
      simp [canonicalTiles]
    rw [List.getElem?_append_right (by omega), hmlen]
    have : size * size - 1 - (size * size - 1) = 0 := by omega
    rw [this]
    rfl
  · rw [hc]
    rw [List.count_append]
    have hz : ((canonicalTiles (size * size)).map some).count none = 0 := by
      rw [List.count_eq_zero]
      simp
    rw [hz]
    rfl
  · rw [hc, hs]
    rw [List.filterMap_append, filterMap_id_map_some]
    simp

/-! ### The order predicate -/

theorem isOrderedGo_iff (l : List (Option Nat)) :
    ∀ p : Option Nat,
      (isOrderedGo p l = true ↔ List.Chain' (· < ·) (p.toList ++ l.filterMap id)) := by
  induction l with
  | nil =>
    intro p
    cases p <;> simp [isOrderedGo]
  | cons c rest ih =>
    intro p
    cases c with
    | none =>
      have h1 : isOrderedGo p (none :: rest) = isOrderedGo p rest := by
        cases p <;> rfl
      rw [h1]
      simpa using ih p
    | some v =>
      cases p with
      | none =>
        have h1 : isOrderedGo none (some v :: rest) = isOrderedGo (some v) rest := rfl
        rw [h1]
        simpa using ih (some v)
      | some q =>
        have h1 : isOrderedGo (some q) (some v :: rest)
            = if v ≤ q then false else isOrderedGo (some v) rest := rfl
        have hfm : List.filterMap id (some v :: rest) = v :: List.filterMap id rest := rfl
        rw [h1, hfm]
        simp only [Option.toList_some, List.singleton_append]
        rw [List.chain'_cons]
        by_cases hvq : v ≤ q
        · rw [if_pos hvq]
          constructor
          · intro h
            cases h
          · rintro ⟨h2, -⟩
            exact absurd h2 (by omega)
        · rw [if_neg hvq]
          rw [ih (some v)]
          simp only [Option.toList_some, List.singleton_append]
          constructor
          · intro h
            exact ⟨by omega, h⟩
          · rintro ⟨-, h⟩
            exact h

theorem is_ordered_iff_chain (b : Board) :
    b.is_ordered = true ↔ List.Chain' (· < ·) (b.cells.filterMap id) := by
  simpa using isOrderedGo_iff b.cells none

theorem chain_lt_canonicalTiles (n : Nat) :
    List.Chain' (· < ·) (canonicalTiles n) := by
  unfold canonicalTiles
  exact List.Pairwise.chain' (List.pairwise_lt_range' 1 (n - 1) 1 Nat.one_pos)

theorem eq_canonical_of_chain (l : List Nat) (n : Nat)
    (hp : l.Perm (canonicalTiles n)) (hc : List.Chain' (· < ·) l) :
    l = canonicalTiles n := by
  have hs1 : List.Sorted (· < ·) l := List.chain'_iff_pairwise.mp hc
  have hs2 : List.Sorted (· < ·) (canonicalTiles n) :=
    List.chain'_iff_pairwise.mp (chain_lt_canonicalTiles n)
  exact List.eq_of_perm_of_sorted hp hs1 hs2

theorem is_ordered_iff_canonical {b : Board} (hwf : b.WF) :
    b.is_ordered = true
      ↔ b.cells.filterMap id = canonicalTiles (b.size * b.size) := by
  rw [is_ordered_iff_chain]
  constructor
  · intro hc
    exact eq_canonical_of_chain _ _ hwf.2.2.2.2 hc
  · intro he
    rw [he]
    exact chain_lt_canonicalTiles _

theorem is_ordered_of_canonical (b : Board) (n : Nat)
    (hc : b.cells = (canonicalTiles n).map some ++ [none]) :
    b.is_ordered = true := by
  rw [is_ordered_iff_chain, hc, List.filterMap_append, filterMap_id_map_some]
  simpa using chain_lt_canonicalTiles n

/-! ### Opposite moves restore the board -/

theorem getElem?_some_of_lt (l : List (Option Nat)) (t : Nat) (h : t < l.length) :
    l[t]? = some (l.getD t none) := by
  rw [List.getD_eq_getElem?_getD, List.getElem?_eq_getElem h]
  rfl

theorem apply_move_inverse {b : Board} (hwf : b.WF) {t : Nat}
    (ht : t < b.cells.length) :
    (b.apply_move t).apply_move b.free_cell_ix = b := by
  obtain ⟨hlen, hfree, hcell, -, -⟩ := hwf
  have hct := getElem?_some_of_lt b.cells t ht
  refine Board.ext ?_ rfl rfl
  show listSwap (listSwap b.cells b.free_cell_ix t) t b.free_cell_ix = b.cells
  exact listSwap_involution hcell hct

theorem move_once_opposite {b : Board} (hwf : b.WF) (mv : Move)
    (h : (b.move_once mv).2 = true) :
    ((b.move_once mv).1).move_once (opposite mv) = (b, true) := by
  have hfree := free_lt_len_of_wf hwf
  have hlen := hwf.1
  cases mv
  · by_cases hc : (b.free_cell_ix + 1) % b.size = 0
    · rw [move_once_left b hwf, if_pos hc] at h
      simp at h
    · have hE := move_once_left b hwf
      rw [if_neg hc] at hE
      rw [hE]
      show ((b.apply_move (b.free_cell_ix + 1), true).1).move_once Move.Right = (b, true)
      have ht : b.free_cell_ix + 1 < b.cells.length := left_target_lt hwf hc
      have hwf2 : (b.apply_move (b.free_cell_ix + 1)).WF := wf_apply_move hwf ht
      rw [move_once_right _ hwf2]
      have hfc : (b.apply_move (b.free_cell_ix + 1)).free_cell_ix
          = b.free_cell_ix + 1 := rfl
      have hsc : (b.apply_move (b.free_cell_ix + 1)).size = b.size := rfl
      rw [hfc, hsc, if_neg hc]
      have hsub : b.free_cell_ix + 1 - 1 = b.free_cell_ix := by omega
      rw [hsub, apply_move_inverse hwf ht]
  · by_cases hc : b.free_cell_ix % b.size = 0
    · rw [move_once_right b hwf, if_pos hc] at h
      simp at h
    · have hE := move_once_right b hwf
      rw [if_neg hc] at hE
      rw [hE]
      show ((b.apply_move (b.free_cell_ix - 1), true).1).move_once Move.Left = (b, true)
      have hpos : 1 ≤ b.free_cell_ix := right_source_pos hc
      have ht : b.free_cell_ix - 1 < b.cells.length := by omega
      have hwf2 : (b.apply_move (b.free_cell_ix - 1)).WF := wf_apply_move hwf ht
      rw [move_once_left _ hwf2]
      have hfc : (b.apply_move (b.free_cell_ix - 1)).free_cell_ix
          = b.free_cell_ix - 1 := rfl
      have hsc : (b.apply_move (b.free_cell_ix - 1)).size = b.size := rfl
      rw [hfc, hsc]
      have hadd : b.free_cell_ix - 1 + 1 = b.free_cell_ix := by omega
      rw [hadd, if_neg hc, apply_move_inverse hwf ht]
  · by_cases hc : b.size * b.size ≤ b.free_cell_ix + b.size
    · rw [move_once_up b hwf, if_pos hc] at h
      simp at h
    · have hE := move_once_up b hwf
      rw [if_neg hc] at hE
      rw [hE]
      show ((b.apply_move (b.free_cell_ix + b.size), true).1).move_once Move.Down
          = (b, true)
      have ht : b.free_cell_ix + b.size < b.cells.length := by omega
      have hwf2 : (b.apply_move (b.free_cell_ix + b.size)).WF := wf_apply_move hwf ht
      rw [move_once_down _ hwf2]
      have hfc : (b.apply_move (b.free_cell_ix + b.size)).free_cell_ix
          = b.free_cell_ix + b.size := rfl
      have hsc : (b.apply_move (b.free_cell_ix + b.size)).size = b.size := rfl
      rw [hfc, hsc, if_neg (by omega)]
      have hsub : b.free_cell_ix + b.size - b.size = b.free_cell_ix := by omega
      rw [hsub, apply_move_inverse hwf ht]
  · by_cases hc : b.free_cell_ix < b.size
    · rw [move_once_down b hwf, if_pos hc] at h
      simp at h
    · have hE := move_once_down b hwf
      rw [if_neg hc] at hE
      rw [hE]
      show ((b.apply_move (b.free_cell_ix - b.size), true).1).move_once Move.Up
          = (b, true)
      have ht : b.free_cell_ix - b.size < b.cells.length := by omega
      have hwf2 : (b.apply_move (b.free_cell_ix - b.size)).WF := wf_apply_move hwf ht
      rw [move_once_up _ hwf2]
      have hfc : (b.apply_move (b.free_cell_ix - b.size)).free_cell_ix
          = b.free_cell_ix - b.size := rfl
      have hsc : (b.apply_move (b.free_cell_ix - b.size)).size = b.size := rfl
      rw [hfc, hsc, if_neg (by omega)]
      have hadd : b.free_cell_ix - b.size + b.size = b.free_cell_ix := by omega
      rw [hadd, apply_move_inverse hwf ht]

/-! ### `move_many` is the left fold of `move_once` -/

theorem move_many_fold (moves : List Move) :
    ∀ (b : Board) (k : Nat),
      moves.foldl
        (fun acc mv =>
          let r := acc.1.move_once mv
          (r.1, if r.2 then acc.2 + 1 else acc.2)) (b, k)
      = (b.applyAll moves, k + (b.moveResults moves).count true) := by
  induction moves with
  | nil =>
    intro b k
    simp [Board.applyAll, Board.moveResults]
  | cons mv rest ih =>
    intro b k
    simp only [List.foldl_cons]
    rw [ih]
    have h1 : b.applyAll (mv :: rest) = ((b.move_once mv).1).applyAll rest := by
      simp [Board.applyAll]
    have h2 : b.moveResults (mv :: rest)
        = (b.move_once mv).2 :: ((b.move_once mv).1).moveResults rest := rfl
    rw [h1, h2]
    cases hr : (b.move_once mv).2 <;> simp [List.count_cons, hr] <;> omega

theorem move_many_eq (b : Board) (moves : List Move) :
    b.move_many moves = (b.applyAll moves, (b.moveResults moves).count true) := by
  unfold Board.move_many
  rw [move_many_fold]
  simp

/-! ### The shuffle loop -/

theorem shuffleRun_succ (b : Board) (s : Nat → Move) (n : Nat) :
    shuffleRun b s (n + 1)
      = if (shuffleRun b s n).2 < b.size ^ 4 then
          (((shuffleRun b s n).1.move_once (s n)).1,
            if ((shuffleRun b s n).1.move_once (s n)).2
            then (shuffleRun b s n).2 + 1 else (shuffleRun b s n).2)
        else shuffleRun b s n := rfl

theorem shuffleRun_wf {b : Board} (s : Nat → Move) (hwf : b.WF) :
    ∀ n, (shuffleRun b s n).1.WF := by
  intro n
  induction n with
  | zero => exact hwf
  | succ k ih =>
    rw [shuffleRun_succ]
    split
    · exact wf_move_once ih (s k)
    · exact ih

theorem shuffleRun_size (b : Board) (s : Nat → Move) :
    ∀ n, (shuffleRun b s n).1.size = b.size := by
  intro n
  induction n with
  | zero => rfl
  | succ k ih =>
    rw [shuffleRun_succ]
    split
    · rw [size_move_once, ih]
    · exact ih

theorem shuffleRun_count_step (b : Board) (s : Nat → Move) (n : Nat) :
    (shuffleRun b s n).2 ≤ (shuffleRun b s (n + 1)).2 := by
  rw [shuffleRun_succ]
  split
  · show (shuffleRun b s n).2
        ≤ (if ((shuffleRun b s n).1.move_once (s n)).2
           then (shuffleRun b s n).2 + 1 else (shuffleRun b s n).2)
    split <;> omega
  · exact Nat.le_refl _

theorem shuffleRun_count_le (b : Board) (s : Nat → Move) :
    ∀ n, (shuffleRun b s n).2 ≤ b.size ^ 4 := by
  intro n
  induction n with
  | zero => exact Nat.zero_le _
  | succ k ih =>
    rw [shuffleRun_succ]
    split
    · show (if ((shuffleRun b s k).1.move_once (s k)).2
           then (shuffleRun b s k).2 + 1 else (shuffleRun b s k).2) ≤ b.size ^ 4
      split <;> omega
    · exact ih

/-! ### Termination of the shuffle loop under a fair draw stream -/

theorem mono_of_step (f : Nat → Nat) (hstep : ∀ n, f n ≤ f (n + 1)) :
    ∀ m n : Nat, m ≤ n → f m ≤ f n := by
  intro m n h
  induction n with
  | zero =>
    have hm : m = 0 := by omega
    rw [hm]
  | succ k ih =>
    rcases Nat.lt_or_ge m (k + 1) with h1 | h1
    · exact Nat.le_trans (ih (by omega)) (hstep k)
    · have hm : m = k + 1 := by omega
      rw [hm]

theorem exists_ge_of_no_max (f : Nat → Nat)
    (hgrow : ∀ N, ∃ n, N ≤ n ∧ f N < f n) : ∀ k, ∃ n, k ≤ f n := by
  intro k
  induction k with
  | zero => exact ⟨0, Nat.zero_le _⟩
  | succ k2 ih =>
    obtain ⟨n, hn⟩ := ih
    obtain ⟨m, hm1, hm2⟩ := hgrow n
    exact ⟨m, by omega⟩

theorem stabilize (f : Nat → Nat) (B : Nat) (hstep : ∀ n, f n ≤ f (n + 1))
    (hB : ∀ n, f n ≤ B) : ∃ N, ∀ m, N ≤ m → f m = f N := by
  by_contra h
  push_neg at h
  have hgrow : ∀ N, ∃ n, N ≤ n ∧ f N < f n := by
    intro N
    obtain ⟨m, hm1, hm2⟩ := h N
    exact ⟨m, hm1, Nat.lt_of_le_of_ne (mono_of_step f hstep N m hm1)
      fun he => hm2 he.symm⟩
  obtain ⟨n, hn⟩ := exists_ge_of_no_max f hgrow (B + 1)
  exact absurd (hB n) (by omega)

theorem exists_legal_horizontal {b : Board} (hwf : b.WF) (h2 : 2 ≤ b.size) :
    (b.move_once Move.Left).2 = true ∨ (b.move_once Move.Right).2 = true := by
  by_cases h : b.free_cell_ix % b.size = 0
  · left
    rw [move_once_left b hwf]
    obtain ⟨q, hq⟩ := Nat.dvd_of_mod_eq_zero h
    have hmod : (b.free_cell_ix + 1) % b.size = 1 := by
      rw [hq, Nat.mul_add_mod]
      exact Nat.mod_eq_of_lt (by omega)
    have hne : (b.free_cell_ix + 1) % b.size ≠ 0 := by
      rw [hmod]
      omega
    rw [if_neg hne]
  · right
    rw [move_once_right b hwf, if_neg h]

theorem shuffle_fair_terminates {b : Board} (s : Nat → Move) (hwf : b.WF)
    (h2 : 2 ≤ b.size)
    (hfair : ∀ (d : Move) (k : Nat), ∃ j, k ≤ j ∧ s j = d) :
    shuffleTerminates b s := by
  by_contra hnt
  unfold shuffleTerminates at hnt
  push_neg at hnt
  have hstep := shuffleRun_count_step b s
  have hle := shuffleRun_count_le b s
  have hlt : ∀ n, (shuffleRun b s n).2 < b.size ^ 4 :=
    fun n => Nat.lt_of_le_of_ne (hle n) (hnt n)
  obtain ⟨N, hN⟩ :=
    stabilize (fun n => (shuffleRun b s n).2) (b.size ^ 4) hstep hle
  have hboard : ∀ m, N ≤ m → (shuffleRun b s m).1 = (shuffleRun b s N).1 := by
    intro m
    induction m with
    | zero =>
      intro hm
      have h0 : N = 0 := by omega
      rw [h0]
    | succ k ih =>
      intro hm
      rcases Nat.lt_or_ge N (k + 1) with h1 | h1
      · have hNk : N ≤ k := by omega
        have hkk := ih hNk
        have hcnt : (shuffleRun b s (k + 1)).2 = (shuffleRun b s k).2 := by
          rw [hN (k + 1) (by omega), hN k hNk]
        have hr : ((shuffleRun b s k).1.move_once (s k)).2 = false := by
          by_contra hrr
          have hr2 : ((shuffleRun b s k).1.move_once (s k)).2 = true := by
            revert hrr
            cases ((shuffleRun b s k).1.move_once (s k)).2 <;> simp
          rw [shuffleRun_succ, if_pos (hlt k)] at hcnt
          rw [hr2] at hcnt
          simp at hcnt
        rw [shuffleRun_succ, if_pos (hlt k)]
        show ((shuffleRun b s k).1.move_once (s k)).1 = (shuffleRun b s N).1
        rw [move_once_fail_eq hr, hkk]
      · have hm1 : N = k + 1 := by omega
        rw [hm1]
  have hwfN : (shuffleRun b s N).1.WF := shuffleRun_wf s hwf N
  have hsizeN : (shuffleRun b s N).1.size = b.size := shuffleRun_size b s N
  have key : ∀ d : Move, ((shuffleRun b s N).1.move_once d).2 = true → False := by
    intro d hd
    obtain ⟨j, hj1, hj2⟩ := hfair d N
    have hbj := hboard j hj1
    have hcnt1 : (shuffleRun b s (j + 1)).2 = (shuffleRun b s N).2 :=
      hN (j + 1) (by omega)
    have hcnt2 : (shuffleRun b s j).2 = (shuffleRun b s N).2 := hN j hj1
    have hsucc : (shuffleRun b s (j + 1)).2 = (shuffleRun b s j).2 + 1 := by
      rw [shuffleRun_succ, if_pos (hlt j)]
      show (if ((shuffleRun b s j).1.move_once (s j)).2
            then (shuffleRun b s j).2 + 1 else (shuffleRun b s j).2)
          = (shuffleRun b s j).2 + 1
      rw [hj2, hbj, hd]
      simp
    omega
  rcases exists_legal_horizontal hwfN (by rw [hsizeN]; exact h2) with h | h
  · exact key Move.Left h
  · exact key Move.Right h

/-! ### The degenerate 1-by-1 board -/

theorem move_once_new_one (mv : Move) :
    (Board.new 1).move_once mv = (Board.new 1, false) := by
  cases mv <;> decide

theorem shuffleRun_new_one (s : Nat → Move) :
    ∀ n, shuffleRun (Board.new 1) s n = (Board.new 1, 0) := by
  intro n
  induction n with
  | zero => rfl
  | succ k ih =>
    rw [shuffleRun_succ, ih, move_once_new_one (s k)]
    have hs : (Board.new 1).size = 1 := rfl
    simp [hs]

/-- A draw stream cycling through the four directions hits every direction
at or after every index. -/
theorem cycleStream_fair (d : Move) (k : Nat) :
    ∃ j, k ≤ j ∧ cycleStream j = d := by
  cases d
  · refine ⟨4 * (k / 4 + 1), by omega, ?_⟩
    have h4 : 4 * (k / 4 + 1) % 4 = 0 := by omega
    simp [cycleStream, h4]
  · refine ⟨4 * (k / 4 + 1) + 1, by omega, ?_⟩
    have h4 : (4 * (k / 4 + 1) + 1) % 4 = 1 := by omega
    simp [cycleStream, h4]
  · refine ⟨4 * (k / 4 + 1) + 2, by omega, ?_⟩
    have h4 : (4 * (k / 4 + 1) + 2) % 4 = 2 := by omega
    simp [cycleStream, h4]
  · refine ⟨4 * (k / 4 + 1) + 3, by omega, ?_⟩
    have h4 : (4 * (k / 4 + 1) + 3) % 4 = 3 := by omega
    simp [cycleStream, h4]

/-! ### `move_once` against the specification wording, and panic-freedom -/

theorem intCast_mod_eq_zero_iff (m n : Nat) :
    ((m : Int) % (n : Int) = 0) ↔ m % n = 0 := by
  rw [← Int.natCast_mod]
  exact Int.natCast_eq_zero

theorem intCast_add_one (m : Nat) : (m : Int) + 1 = ((m + 1 : Nat) : Int) := by
  push_cast
  ring

theorem moveOnceSpec_left (b : Board) :
    moveOnceSpec b Move.Left
      = if (b.free_cell_ix + 1) % b.size = 0 then (b, false)
        else (b.apply_move (b.free_cell_ix + 1), true) := by
  have hiff : (((b.free_cell_ix : Int) + 1) % (b.size : Int) = 0)
      ↔ (b.free_cell_ix + 1) % b.size = 0 := by
    rw [intCast_add_one]
    exact intCast_mod_eq_zero_iff _ _
  have htn : ((b.free_cell_ix : Int) + 1).toNat = b.free_cell_ix + 1 := by omega
  by_cases h : (b.free_cell_ix + 1) % b.size = 0
  · rw [if_pos h]
    simp [moveOnceSpec, hiff.mpr h]
  · rw [if_neg h]
    simp only [moveOnceSpec, decide_eq_true_eq]
    rw [if_neg (by simpa [hiff] using h), htn]

theorem moveOnceSpec_right (b : Board) :
    moveOnceSpec b Move.Right
      = if b.free_cell_ix % b.size = 0 then (b, false)
        else (b.apply_move (b.free_cell_ix - 1), true) := by
  have hiff : ((b.free_cell_ix : Int) % (b.size : Int) = 0)
      ↔ b.free_cell_ix % b.size = 0 := intCast_mod_eq_zero_iff _ _
  by_cases h : b.free_cell_ix % b.size = 0
  · rw [if_pos h]
    simp [moveOnceSpec, hiff.mpr h]
  · rw [if_neg h]
    have hpos : 1 ≤ b.free_cell_ix := right_source_pos h
    have htn : ((b.free_cell_ix : Int) - 1).toNat = b.free_cell_ix - 1 := by omega
    simp only [moveOnceSpec, decide_eq_true_eq]
    rw [if_neg (by simpa [hiff] using h), htn]

theorem moveOnceSpec_up (b : Board) :
    moveOnceSpec b Move.Up
      = if b.size * b.size ≤ b.free_cell_ix + b.size then (b, false)
        else (b.apply_move (b.free_cell_ix + b.size), true) := by
  have hiff : ((b.size : Int) * (b.size : Int)
        ≤ (b.free_cell_ix : Int) + (b.size : Int))
      ↔ b.size * b.size ≤ b.free_cell_ix + b.size := by
    constructor <;> intro h <;> exact_mod_cast h
  have htn : ((b.free_cell_ix : Int) + (b.size : Int)).toNat
      = b.free_cell_ix + b.size := by omega
  by_cases h : b.size * b.size ≤ b.free_cell_ix + b.size
  · rw [if_pos h]
    simp [moveOnceSpec, hiff.mpr h]
  · rw [if_neg h]
    simp only [moveOnceSpec, decide_eq_true_eq]
    rw [if_neg (by simpa [hiff] using h), htn]

theorem moveOnceSpec_down (b : Board) :
    moveOnceSpec b Move.Down
      = if b.free_cell_ix < b.size then (b, false)
        else (b.apply_move (b.free_cell_ix - b.size), true) := by
  have hiff : ((b.free_cell_ix : Int) - (b.size : Int) < 0)
      ↔ b.free_cell_ix < b.size := by omega
  by_cases h : b.free_cell_ix < b.size
  · rw [if_pos h]
    simp [moveOnceSpec, hiff.mpr h]
  · rw [if_neg h]
    have htn : ((b.free_cell_ix : Int) - (b.size : Int)).toNat
        = b.free_cell_ix - b.size := by omega
    simp only [moveOnceSpec, decide_eq_true_eq]
    rw [if_neg (by simpa [hiff] using h), htn]

theorem move_once_spec_eq {b : Board} (hwf : b.WF) (mv : Move) :
    b.move_once mv = moveOnceSpec b mv := by
  cases mv
  · rw [move_once_left b hwf, moveOnceSpec_left]
  · rw [move_once_right b hwf, moveOnceSpec_right]
  · rw [move_once_up b hwf, moveOnceSpec_up]
  · rw [move_once_down b hwf, moveOnceSpec_down]

theorem finishMoveChecked_some {b : Board}
    (hfree : b.free_cell_ix < b.cells.length) (t : Int) :
    b.finishMoveChecked t = some (b.finishMove t) := by
  unfold Board.finishMoveChecked Board.finishMove
  split
  · rfl
  · rw [if_neg (by omega)]

theorem move_onceChecked_some {b : Board} (hwf : b.WF) (mv : Move) :
    b.move_onceChecked mv = some (b.move_once mv) := by
  have hs := size_pos_of_wf hwf
  have hf := free_lt_len_of_wf hwf
  cases mv
  · simp only [Board.move_onceChecked, Board.move_once]
    rw [if_neg (show ¬ b.size = 0 by omega)]
    by_cases hc : ((b.free_cell_ix : Int) + 1) % (b.size : Int) = 0
    · rw [if_pos hc, if_pos hc]
    · rw [if_neg hc, if_neg hc]
      exact finishMoveChecked_some hf _
  · simp only [Board.move_onceChecked, Board.move_once]
    rw [if_neg (show ¬ b.size = 0 by omega)]
    by_cases hc : (b.free_cell_ix : Int) % (b.size : Int) = 0
    · rw [if_pos hc, if_pos hc]
    · rw [if_neg hc, if_neg hc]
      exact finishMoveChecked_some hf _
  · simp only [Board.move_onceChecked, Board.move_once]
    exact finishMoveChecked_some hf _
  · simp only [Board.move_onceChecked, Board.move_once]
    exact finishMoveChecked_some hf _

/-! ## Claim theorems -/

/-- C1: on every board of the data model (well-formed per §3), `move_once`
computes the target flat index from the blank index and the size exactly as
the spec states — Left is `blank+1` (illegal when `(blank+1) % size = 0`),
Right is `blank-1` (illegal when `blank % size = 0`), Up is `blank+size`
(illegal when the target is `≥ size*size`), Down is `blank-size` (illegal
when the target is `< 0`); a legal move swaps the blank and target slots and
moves the blank index to the target, returning `true`, an illegal move
leaves the board unchanged and returns `false`; and the call never panics
(the panic-explicit model returns `some` of the normal result). -/
theorem moveOnce_matches_spec_and_never_panics (b : Board) (hwf : b.WF)
    (mv : Move) :
    b.move_once mv = moveOnceSpec b mv
      ∧ b.move_onceChecked mv = some (b.move_once mv) :=
  ⟨move_once_spec_eq hwf mv, move_onceChecked_some hwf mv⟩

theorem moveOnce_matches_spec_and_never_panics_witness :
    (Board.new 2).move_once Move.Right = moveOnceSpec (Board.new 2) Move.Right
      ∧ (Board.new 2).move_onceChecked Move.Right
        = some ((Board.new 2).move_once Move.Right) :=
  moveOnce_matches_spec_and_never_panics (Board.new 2) (by decide) Move.Right

/-- C2: for every `u8` size `≥ 1`, the board freshly built with the identity
shuffle satisfies invariants 1-4 (bundled in `Board.WF`: exactly one empty
slot, the non-empty slots hold each tile `1..size*size-1` exactly once, the
cached blank index points at the empty slot and is `< size*size`), and both
a single `move_once` and any sequence of `move_once` calls preserve them. -/
theorem board_invariants_hold (size : Nat) (h1 : 1 ≤ size) (h256 : size < 256) :
    (Board.new size).WF
      ∧ (∀ b : Board, b.WF → ∀ mv : Move, ((b.move_once mv).1).WF)
      ∧ (∀ (b : Board) (moves : List Move), b.WF → (b.applyAll moves).WF) :=
  ⟨wf_new size h1 h256,
   fun _ hwf mv => wf_move_once hwf mv,
   fun _ moves hwf => wf_applyAll moves hwf⟩

theorem board_invariants_hold_witness :
    (Board.new 2).WF ∧ (((Board.new 2).move_once Move.Right).1).WF :=
  ⟨(board_invariants_hold 2 (by decide) (by decide)).1,
   (board_invariants_hold 2 (by decide) (by decide)).2.1 (Board.new 2)
     ((board_invariants_hold 2 (by decide) (by decide)).1) Move.Right⟩

/-- C3 (as frozen, refuted): the claim asserts termination of the random-walk
shuffle for every board of size `≥ 1` and every behavior of the random
source; on the 1-by-1 board no move is ever legal, so the applied-move count
stays `0 < 1 = 1^4` forever and the loop never terminates, whatever the
draws. -/
theorem shuffle_nonterminating_on_size_one :
    ¬ shuffleTerminates (Board.new 1) (fun _ => Move.Left) := by
  rintro ⟨n, hn⟩
  rw [shuffleRun_new_one (fun _ => Move.Left) n] at hn
  exact absurd hn (by decide)

/-- C3 (amended): for every well-formed board of size `≥ 2` and every
behavior of the random source that keeps drawing each direction at
arbitrarily late positions, the random-walk shuffle terminates, having
applied exactly `size^4` legal moves (illegal draws are retried without
being counted). -/
theorem shuffle_terminates_of_fair (b : Board) (s : Nat → Move) (hwf : b.WF)
    (h2 : 2 ≤ b.size)
    (hfair : ∀ (d : Move) (k : Nat), ∃ j, k ≤ j ∧ s j = d) :
    shuffleTerminates b s :=
  shuffle_fair_terminates s hwf h2 hfair

theorem shuffle_terminates_of_fair_witness :
    shuffleTerminates (Board.new 2) cycleStream :=
  shuffle_terminates_of_fair (Board.new 2) cycleStream (by decide) (by decide)
    cycleStream_fair

/-- C4: the claim says construction with size zero reports an error to the
caller; the code's `Board::new` always returns `Ok` — at size 0 it silently
produces a degenerate board with a single empty cell that violates the
data-model invariants, and it succeeds for every size. -/
theorem new_zero_silently_succeeds :
    Board.new_result 0 = Except.ok (Board.new 0)
      ∧ Board.new 0 = { cells := [none], size := 0, free_cell_ix := 0 }
      ∧ ¬ (Board.new 0).WF
      ∧ (∀ size : Nat, Board.new_result size = Except.ok (Board.new size)) :=
  ⟨rfl, by decide, by decide, fun _ => rfl⟩

/-- C5: for every `u8` size `≥ 1`, the board freshly built with the identity
shuffle has cells `1, 2, …, size*size-1` in row-major order followed by the
empty slot at the last flat index, its blank index is `size*size - 1`, and
`is_ordered` returns `true` on it. -/
theorem new_board_is_canonical_solved (size : Nat) (h1 : 1 ≤ size)
    (h256 : size < 256) :
    (Board.new size).cells = (canonicalTiles (size * size)).map some ++ [none]
      ∧ (Board.new size).free_cell_ix = size * size - 1
      ∧ (Board.new size).is_ordered = true := by
  obtain ⟨hc, hs, hf⟩ := new_canonical size h1 h256
  exact ⟨hc, hf, is_ordered_of_canonical _ _ hc⟩

theorem new_board_is_canonical_solved_witness :
    (Board.new 3).cells = (canonicalTiles (3 * 3)).map some ++ [none]
      ∧ (Board.new 3).free_cell_ix = 3 * 3 - 1
      ∧ (Board.new 3).is_ordered = true :=
  new_board_is_canonical_solved 3 (by decide) (by decide)

/-- C6: `is_ordered` returns `true` iff the non-empty cells read in storage
order, skipping the blank, are strictly increasing; under the data-model
invariants this is equivalent to those values being exactly
`1, 2, …, size*size-1`; and the result depends only on the blank-skipped
value sequence, hence not on which cell holds the blank. -/
theorem isOrdered_iff_strictly_increasing (b : Board) :
    (b.is_ordered = true ↔ List.Chain' (· < ·) (b.cells.filterMap id))
      ∧ (b.WF →
          (b.is_ordered = true
            ↔ b.cells.filterMap id = canonicalTiles (b.size * b.size)))
      ∧ (∀ b2 : Board, b2.cells.filterMap id = b.cells.filterMap id →
          b2.is_ordered = b.is_ordered) := by
  refine ⟨is_ordered_iff_chain b, fun hwf => is_ordered_iff_canonical hwf,
    fun b2 he => ?_⟩
  rw [Bool.eq_iff_iff, is_ordered_iff_chain, is_ordered_iff_chain, he]

theorem isOrdered_iff_strictly_increasing_witness :
    (Board.new 2).is_ordered = true
      ↔ (Board.new 2).cells.filterMap id
        = canonicalTiles ((Board.new 2).size * (Board.new 2).size) :=
  (isOrdered_iff_strictly_increasing (Board.new 2)).2.1 (by decide)

/-- C7: on every board of the data model, if `move_once d` succeeds then
`move_once` of the opposite direction also succeeds and restores the prior
board exactly (same cells and same blank index). -/
theorem moveOnce_opposite_restores (b : Board) (hwf : b.WF) (mv : Move)
    (h : (b.move_once mv).2 = true) :
    ((b.move_once mv).1).move_once (opposite mv) = (b, true) :=
  move_once_opposite hwf mv h

theorem moveOnce_opposite_restores_witness :
    (((Board.new 2).move_once Move.Right).1).move_once (opposite Move.Right)
      = (Board.new 2, true) :=
  moveOnce_opposite_restores (Board.new 2) (by decide) Move.Right (by decide)

/-- C8: `move_many` attempts every direction of the sequence in order (a
failed move does not stop later ones), the final state is the left fold of
`move_once` over the sequence, and the returned count is the number of
`move_once` calls that returned `true`. -/
theorem moveMany_folds_and_counts (b : Board) (moves : List Move) :
    b.move_many moves = (b.applyAll moves, (b.moveResults moves).count true) :=
  move_many_eq b moves

/-- C9: construction at size 255 does not overflow the `u16` cell-count
arithmetic (`255*255 = 65025 < 2^16`), yields the canonical layout whose
tile values `1..65024` all fit an unsigned 16-bit integer, and `is_ordered`
holds on it. -/
theorem size255_constructs_without_overflow :
    255 * 255 % 65536 = 255 * 255
      ∧ (Board.new 255).cells = (canonicalTiles 65025).map some ++ [none]
      ∧ (Board.new 255).cells.length = 65025
      ∧ (Board.new 255).free_cell_ix = 65024
      ∧ 65024 < 65536
      ∧ (Board.new 255).is_ordered = true := by
  obtain ⟨hc, hs, hf⟩ := new_canonical 255 (by omega) (by omega)
  have h255 : (255 : Nat) * 255 = 65025 := by norm_num
  refine ⟨by norm_num, ?_, ?_, ?_, by norm_num, ?_⟩
  · rw [hc, h255]
  · rw [hc, h255]
    rw [List.length_append, List.length_map]
    rw [show canonicalTiles 65025 = List.range' 1 65024 from rfl,
      List.length_range']
    rfl
  · rw [hf, h255]
  · exact is_ordered_of_canonical _ _ hc

/-- C10: on the 1-by-1 board (a single cell holding the blank, no tiles)
every `move_once` call returns `false` and leaves the board unchanged, in
each of the four directions, and consequently the random-walk shuffle loop
never increases its applied-move count on it. -/
theorem one_by_one_board_has_no_legal_moves :
    (∀ mv : Move, (Board.new 1).move_once mv = (Board.new 1, false))
      ∧ (∀ (s : Nat → Move) (n : Nat),
          shuffleRun (Board.new 1) s n = (Board.new 1, 0)) :=
  ⟨move_once_new_one, shuffleRun_new_one⟩

end PuzzleFifteen
